import Mathlib

/-!
Verification of the goldga snapshot-storage layer (`storage.go`).

The embedding models byte strings as `List Char` (one `Char` per byte),
the `afero` filesystem capability as an explicit `Fs` state value that is
threaded through every operation, and Go `error` values as the inductive
`GoErr` (with `GoErr.wrap` standing for `fmt.Errorf("...: %w", err)` and
`GoErr.isNotFound` standing for `errors.Is(err, afero.ErrFileNotFound)`).

`SingleStorage.Read`/`Write`, `SuiteStorage.getSuiteData`/`Read`/`Write`,
`suiteData.sortSnapshotKeys` and the suite-file encoding are translated
directly from `storage.go`.  The TOML decoding performed by the external
`BurntSushi/toml` library is not part of the repository; it is modelled
from the spec (see `decodeSuite` below).
-/

set_option maxHeartbeats 1000000

namespace Goldga

/-- Byte strings of the model: one `Char` per byte. -/
abbrev Str := List Char

instance exceptDecEq {ε α : Type} [DecidableEq ε] [DecidableEq α] :
    DecidableEq (Except ε α) := fun x y =>
  match x, y with
  | .ok a, .ok b =>
    if h : a = b then .isTrue (by rw [h]) else .isFalse (by intro hc; cases hc; exact h rfl)
  | .error a, .error b =>
    if h : a = b then .isTrue (by rw [h]) else .isFalse (by intro hc; cases hc; exact h rfl)
  | .ok _, .error _ => .isFalse (by intro hc; cases hc)
  | .error _, .ok _ => .isFalse (by intro hc; cases hc)

/-- Go `error` values as the code distinguishes them: `notFound` is
`afero.ErrFileNotFound`, `decodeErr` a TOML decode failure, `ioErr` any
other filesystem failure, and `wrap` is `fmt.Errorf("msg: %w", e)`. -/
inductive GoErr : Type where
  | notFound : GoErr
  | decodeErr : Str → GoErr
  | ioErr : Str → GoErr
  | wrap : Str → GoErr → GoErr
deriving DecidableEq

/-- Model of `errors.Is(e, afero.ErrFileNotFound)`: `%w`-wrapping is
transparent to `errors.Is`. -/
def GoErr.isNotFound : GoErr → Bool
  | .notFound => true
  | .wrap _ e => e.isNotFound
  | _ => false

/-- First-match lookup in an association list (model of Go map read). -/
def mapGet (m : List (Str × Str)) (k : Str) : Option Str :=
  match m with
  | [] => none
  | (k₀, v₀) :: rest => if k₀ = k then some v₀ else mapGet rest k

/-- Overwriting insert (model of Go `m[k] = v`). -/
def mapSet (m : List (Str × Str)) (k v : Str) : List (Str × Str) :=
  (k, v) :: m.filter fun p => decide (p.1 ≠ k)

/-- The filesystem capability state: file contents by path, plus the set
of directories that exist. -/
structure Fs : Type where
  files : List (Str × Str)
  dirs : List Str
deriving DecidableEq

/-- Model of `afero.ReadFile` / opening an existing file. -/
def readFile (fs : Fs) (p : Str) : Option Str := mapGet fs.files p

/-- Model of `afero.WriteFile` / `Fs.Create` followed by writing: full
replacement of the file contents. -/
def writeFileFs (fs : Fs) (p c : Str) : Fs :=
  { fs with files := mapSet fs.files p c }

/-- Model of `afero.Exists` for the paths the code uses (file paths). -/
def fileExists (fs : Fs) (p : Str) : Bool := (readFile fs p).isSome

/-- Split a path on the separator character (helper for `filepath.Dir`). -/
def splitSlash : Str → List Str
  | [] => [[]]
  | c :: r =>
    if c = '/' then [] :: splitSlash r
    else
      match splitSlash r with
      | [] => [[c]]
      | p :: ps => (c :: p) :: ps

/-- Rejoin path components with the separator. -/
def joinSlash : List Str → Str
  | [] => []
  | [p] => p
  | p :: q :: r => p ++ '/' :: joinSlash (q :: r)

/-- Model of `filepath.Dir`: drop the last path component; a component-free
path has directory `"."`. -/
def dirOf (p : Str) : Str :=
  match (splitSlash p).dropLast with
  | [] => ['.']
  | q :: qs => joinSlash (q :: qs)

/-- The nonempty leading segments of a component list. -/
def initsNE : List Str → List (List Str)
  | [] => []
  | x :: r => [x] :: (initsNE r).map fun l => x :: l

/-- The directory together with all of its parent directories. -/
def ancestors (d : Str) : List Str := (initsNE (splitSlash d)).map joinSlash

/-- Model of `Fs.MkdirAll`: create the directory and every missing parent;
never fails, and is idempotent on the set of existing directories. -/
def mkdirAll (fs : Fs) (d : Str) : Fs :=
  { fs with dirs := ancestors d ++ fs.dirs }

/-- `SingleStorage`: one snapshot per file (`storage.go:32`).  The
`afero.Fs` field is modelled as the explicit `Fs` argument of each
operation. -/
structure SingleStorage : Type where
  Path : Str
deriving DecidableEq

def msgReadFile : Str := "failed to read file".data

/-- `SingleStorage.Read` (`storage.go:37`): full-file read, any failure
wrapped with context (the only failure of the model filesystem is
absence). -/
def SingleStorage.Read (s : SingleStorage) (fs : Fs) : Except GoErr Str :=
  match readFile fs s.Path with
  | none => .error (.wrap msgReadFile .notFound)
  | some d => .ok d

/-- `SingleStorage.Write` (`storage.go:46`): `MkdirAll(filepath.Dir(path))`
then a full-file overwrite.  Returns the Go error result paired with the
filesystem after the call. -/
def SingleStorage.Write (s : SingleStorage) (fs : Fs) (data : Str) :
    Option GoErr × Fs :=
  let fs₁ := mkdirAll fs (dirOf s.Path)
  (none, writeFileFs fs₁ s.Path data)

/-- `suiteData` (`storage.go:58`): the decoded suite document. -/
structure suiteData : Type where
  Snapshots : List (Str × Str)
deriving DecidableEq

/-- `newSuiteData` (`storage.go:62`). -/
def newSuiteData : suiteData := ⟨[]⟩

/-- Byte-wise lexicographic comparison of the model strings, as
`sort.Strings` orders Go strings. -/
def lexLe : Str → Str → Bool
  | [], _ => true
  | _ :: _, [] => false
  | a :: as, b :: bs => if a = b then lexLe as bs else decide (a < b)

/-- The ordering relation underlying `sort.Strings`. -/
abbrev lexLeP (a b : Str) : Prop := lexLe a b = true

/-- `suiteData.sortSnapshotKeys` (`storage.go:68`): collect the keys of the
snapshot map and sort them ascending. -/
def suiteData.sortSnapshotKeys (s : suiteData) : List Str :=
  List.insertionSort lexLeP (s.Snapshots.map fun p => p.1)

/-- The triple-quote delimiter of TOML multi-line literal strings. -/
def tq : Str := ['\'', '\'', '\'']

/-- Does the string contain the triple-quote delimiter? (second member of
the pair of characters following a quote) -/
def isQQ : Str → Bool
  | c :: d :: _ => decide (c = '\'') && decide (d = '\'')
  | _ => false

/-- Does the string contain the triple-quote delimiter sequence? -/
def hasTriple : Str → Bool
  | [] => false
  | c :: r => (decide (c = '\'') && isQQ r) || hasTriple r

/-- One character of Go `%q` quoting (model of `strconv.Quote` escaping on
printable text). -/
def escSeq (c : Char) : Str :=
  if c = '"' then ['\\', '"']
  else if c = '\\' then ['\\', '\\']
  else if c = '\n' then ['\\', 'n']
  else if c = '\t' then ['\\', 't']
  else if c = '\r' then ['\\', 'r']
  else [c]

/-- The interior of a Go `%q` quoted string. -/
def quoteBody : Str → Str
  | [] => []
  | c :: r => escSeq c ++ quoteBody r

/-- Go `%q` on a string: a double-quoted, escaped form. -/
def goQuote (k : Str) : Str := '"' :: (quoteBody k ++ ['"'])

/-- The literal ` = '''\n` that `fmt.Fprintf("%q = '''\n%s'''\n", k, v)`
puts between the quoted key and the value. -/
def eqMark : Str := [' ', '=', ' ', '\'', '\'', '\'', '\n']

/-- One serialized snapshot entry, exactly as the `Fprintf` in
`SuiteStorage.Write` (`storage.go:167`) lays it out. -/
def encodeEntry (k v : Str) : Str := goQuote k ++ eqMark ++ v ++ tq ++ ['\n']

/-- Serialize a list of entries in order. -/
def encodeEntriesL : List (Str × Str) → Str
  | [] => []
  | (k, v) :: es => encodeEntry k v ++ encodeEntriesL es

/-- The two header lines printed by `SuiteStorage.Write`
(`storage.go:151`), each terminated by `Fprintln`. -/
def headerText : Str := "# Generated by goldga. DO NOT EDIT.\n[snapshots]\n".data

/-- The snapshot entries in serialization order: sorted keys, each paired
with its value (`storage.go:164`). -/
def entryList (d : suiteData) : List (Str × Str) :=
  d.sortSnapshotKeys.map fun k => (k, (mapGet d.Snapshots k).getD [])

/-- The full bytes written by `SuiteStorage.Write`: header then the sorted
entries. -/
def encodeSuiteData (d : suiteData) : Str :=
  headerText ++ encodeEntriesL (entryList d)

/-- Drop characters up to and including the first newline. -/
def dropLine : Str → Str
  | [] => []
  | c :: r => if c = '\n' then r else dropLine r

/-- Consume up to two quote characters following a closing delimiter:
TOML allows one or two adjacent quotes at the very end of a multi-line
literal string, and they belong to the content. -/
def absorbQuotes : Str → Str × Str
  | [] => ([], [])
  | [c] => if c = '\'' then (['\''], []) else ([], [c])
  | c :: d :: r =>
    if c = '\'' then
      if d = '\'' then (['\'', '\''], r) else (['\''], d :: r)
    else ([], c :: d :: r)

/-- Modelled from the spec: the body of a TOML multi-line literal string
(the structured-text codec of section 4.3, provided by the external
BurntSushi/toml library, absent from the repository source).  Scans up to
the first closing delimiter, letting up to two trailing quotes belong to
the content; returns the content and the remainder after the delimiter. -/
def scanValue : Str → Option (Str × Str)
  | [] => none
  | c :: rest =>
    if c = '\'' then
      if isQQ rest then some (absorbQuotes (rest.drop 2))
      else (scanValue rest).map fun p => (c :: p.1, p.2)
    else (scanValue rest).map fun p => (c :: p.1, p.2)

/-- Modelled from the spec: one escape of a TOML basic (double-quoted)
string, inverse of `escSeq`. -/
def unescape (c : Char) : Option Char :=
  if c = 'n' then some '\n'
  else if c = 't' then some '\t'
  else if c = 'r' then some '\r'
  else if c = '"' then some '"'
  else if c = '\\' then some '\\'
  else none

/-- Modelled from the spec: the body of a TOML basic string after the
opening double quote, with an explicit pending-escape state; returns the
key and the remainder after the closing quote. -/
def scanKeyEsc : Bool → Str → Option (Str × Str)
  | _, [] => none
  | true, e :: r =>
    (unescape e).bind fun d => (scanKeyEsc false r).map fun p => (d :: p.1, p.2)
  | false, c :: r =>
    if c = '"' then some ([], r)
    else if c = '\\' then scanKeyEsc true r
    else (scanKeyEsc false r).map fun p => (c :: p.1, p.2)

/-- Modelled from the spec: the body of a TOML basic string after the
opening double quote. -/
def scanKey : Str → Option (Str × Str) := scanKeyEsc false

def errFuel : Str := "fuel exhausted".data

def errKey : Str := "malformed key".data

def errEq : Str := "expected equals and opening delimiter".data

def errValue : Str := "unterminated value".data

def errNl : Str := "expected newline after value".data

def errEntry : Str := "malformed entry".data

def errTable : Str := "unexpected table".data

def errToken : Str := "unexpected token".data

def snapTag : Str := "snapshots]\n".data

/-- Modelled from the spec: parse the serialized entries of the
`[snapshots]` section, each of the form `"key" = '''` newline value
`'''` newline, rejecting anything else as malformed.  The fuel argument
only bounds recursion; `decodeSuite` supplies more fuel than entries. -/
def parseEntriesF : Nat → Str → Except Str (List (Str × Str))
  | _, [] => .ok []
  | 0, _ :: _ => .error errFuel
  | fuel + 1, c :: r =>
    if c = '"' then
      match scanKey r with
      | none => .error errKey
      | some (k, r₁) =>
        if r₁.take 7 = eqMark then
          match scanValue (r₁.drop 7) with
          | none => .error errValue
          | some (v, r₂) =>
            match r₂ with
            | [] => .error errNl
            | c₂ :: r₃ =>
              if c₂ = '\n' then
                match parseEntriesF fuel r₃ with
                | .error m => .error m
                | .ok es => .ok ((k, v) :: es)
              else .error errNl
        else .error errEq
    else .error errEntry

/-- Modelled from the spec: skip comment and blank lines before the
`[snapshots]` section marker; an empty document decodes to the empty
mapping, and anything other than the marker is malformed. -/
def parsePreludeF : Nat → Str → Except Str (Option Str)
  | _, [] => .ok none
  | 0, _ :: _ => .error errFuel
  | fuel + 1, c :: r =>
    if c = '#' then parsePreludeF fuel (dropLine r)
    else if c = '\n' then parsePreludeF fuel r
    else if c = '[' then
      if r.take 11 = snapTag then .ok (some (r.drop 11)) else .error errTable
    else .error errToken

/-- Modelled from the spec: the structured-text decode of a suite
document (section 4.3) - the `toml.DecodeReader` call of
`SuiteStorage.getSuiteData`, whose implementation lives in the external
BurntSushi/toml library, restricted to the document grammar of section 6.
Absence of the `[snapshots]` section decodes to the empty mapping. -/
def decodeSuite (c : Str) : Except Str (List (Str × Str)) :=
  match parsePreludeF (c.length + 1) c with
  | .error m => .error m
  | .ok none => .ok []
  | .ok (some rest) => parseEntriesF (c.length + 1) rest

/-- `SuiteStorage` (`storage.go:82`): many snapshots in one file, this
instance addressing the entry named `Name`. -/
structure SuiteStorage : Type where
  Path : Str
  Name : Str
deriving DecidableEq

def msgToml : Str := "toml decode error".data

/-- `SuiteStorage.getSuiteData` (`storage.go:88`): existence check (absence
is the bare `afero.ErrFileNotFound`), open, then TOML decode (failure
wrapped with context). -/
def SuiteStorage.getSuiteData (s : SuiteStorage) (fs : Fs) :
    Except GoErr suiteData :=
  match readFile fs s.Path with
  | none => .error .notFound
  | some content =>
    match decodeSuite content with
    | .error m => .error (.wrap msgToml (.decodeErr m))
    | .ok snaps => .ok ⟨snaps⟩

/-- `SuiteStorage.Read` (`storage.go:114`): decode the document, look up
the configured name, absence of the key is `afero.ErrFileNotFound`. -/
def SuiteStorage.Read (s : SuiteStorage) (fs : Fs) : Except GoErr Str :=
  match s.getSuiteData fs with
  | .error e => .error e
  | .ok data =>
    match mapGet data.Snapshots s.Name with
    | some v => .ok v
    | none => .error .notFound

/-- The tail of `SuiteStorage.Write` after the document is in hand
(`storage.go:139`): create parent directories, create (truncate) the
file, print header then sorted snapshots. -/
def SuiteStorage.writeSnaps (s : SuiteStorage) (fs : Fs)
    (snaps : List (Str × Str)) : Option GoErr × Fs :=
  let fs₁ := mkdirAll fs (dirOf s.Path)
  (none, writeFileFs fs₁ s.Path (encodeSuiteData ⟨snaps⟩))

/-- `SuiteStorage.Write` (`storage.go:127`): read-modify-write of the
whole document; a not-found decode failure starts from an empty document,
any other failure is returned before touching the filesystem. -/
def SuiteStorage.Write (s : SuiteStorage) (fs : Fs) (input : Str) :
    Option GoErr × Fs :=
  match s.getSuiteData fs with
  | .ok data => s.writeSnaps fs (mapSet data.Snapshots s.Name input)
  | .error e =>
    if e.isNotFound then s.writeSnaps fs (mapSet newSuiteData.Snapshots s.Name input)
    else (some e, fs)

/-! Association-list lemmas. -/

theorem mapGet_mapSet_self (m : List (Str × Str)) (k v : Str) :
    mapGet (mapSet m k v) k = some v := by
  simp [mapSet, mapGet]

theorem mapGet_filter_ne (m : List (Str × Str)) (k j : Str) (h : j ≠ k) :
    mapGet (m.filter fun p => decide (p.1 ≠ k)) j = mapGet m j := by
  induction m with
  | nil => rfl
  | cons hd tl ih =>
    obtain ⟨k₀, v₀⟩ := hd
    simp only [decide_not] at ih
    by_cases hk : k₀ = k
    · subst hk
      have hne : k₀ ≠ j := fun hc => h hc.symm
      simp [mapGet, hne, ih]
    · by_cases hj : k₀ = j
      · subst hj
        simp [mapGet, hk]
      · simp [mapGet, hk, hj, ih]

theorem mapGet_mapSet_ne (m : List (Str × Str)) (k v j : Str) (h : j ≠ k) :
    mapGet (mapSet m k v) j = mapGet m j := by
  have hk : k ≠ j := fun hc => h hc.symm
  have h₁ := mapGet_filter_ne m k j h
  simp only [mapSet, mapGet, if_neg hk]
  simpa using h₁

theorem mapGet_some_mem (m : List (Str × Str)) (k v : Str)
    (h : mapGet m k = some v) : (k, v) ∈ m := by
  induction m with
  | nil => simp [mapGet] at h
  | cons hd tl ih =>
    obtain ⟨k₀, v₀⟩ := hd
    by_cases hk : k₀ = k
    · subst hk
      simp [mapGet] at h
      simp [h]
    · simp only [mapGet, if_neg hk] at h
      exact List.mem_cons_of_mem _ (ih h)

theorem mem_keys_of_mapGet_some (m : List (Str × Str)) (k v : Str)
    (h : mapGet m k = some v) : k ∈ m.map fun p => p.1 := by
  have := mapGet_some_mem m k v h
  exact List.mem_map.2 ⟨(k, v), this, rfl⟩

theorem mapGet_none_not_mem (m : List (Str × Str)) (k : Str)
    (h : mapGet m k = none) : k ∉ m.map fun p => p.1 := by
  induction m with
  | nil => simp
  | cons hd tl ih =>
    obtain ⟨k₀, v₀⟩ := hd
    by_cases hk : k₀ = k
    · subst hk; simp [mapGet] at h
    · simp only [mapGet, if_neg hk] at h
      simp only [List.map_cons]
      intro hc
      rcases List.mem_cons.1 hc with h₁ | h₁
      · exact hk h₁.symm
      · exact ih h h₁

theorem map_fst_filter_ne (m : List (Str × Str)) (k : Str) :
    (m.filter fun p => decide (p.1 ≠ k)).map (fun p => p.1)
      = (m.map fun p => p.1).filter fun j => decide (j ≠ k) := by
  induction m with
  | nil => rfl
  | cons hd tl ih =>
    obtain ⟨k₀, v₀⟩ := hd
    simp only [decide_not] at ih
    by_cases hk : k₀ = k
    · subst hk; simp [ih]
    · simp [hk, ih]

/-! Lexicographic order lemmas. -/

theorem lexLe_refl (a : Str) : lexLe a a = true := by
  induction a with
  | nil => rfl
  | cons c r ih => simp [lexLe, ih]

theorem lexLe_total (a b : Str) : lexLe a b = true ∨ lexLe b a = true := by
  induction a generalizing b with
  | nil => exact Or.inl rfl
  | cons c r ih =>
    cases b with
    | nil => exact Or.inr rfl
    | cons d s =>
      by_cases h : c = d
      · subst h
        rcases ih s with h₁ | h₁
        · exact Or.inl (by simp [lexLe, h₁])
        · exact Or.inr (by simp [lexLe, h₁])
      · rcases lt_or_gt_of_ne h with hlt | hlt
        · exact Or.inl (by simp [lexLe, h, hlt])
        · have hne : d ≠ c := fun hc => h hc.symm
          exact Or.inr (by simp [lexLe, hne, hlt])

theorem lexLe_trans (a b c : Str) (hab : lexLe a b = true)
    (hbc : lexLe b c = true) : lexLe a c = true := by
  induction a generalizing b c with
  | nil => rfl
  | cons x r ih =>
    cases b with
    | nil => simp [lexLe] at hab
    | cons y s =>
      cases c with
      | nil => simp [lexLe] at hbc
      | cons z t =>
        by_cases hxy : x = y
        · subst hxy
          by_cases hyz : x = z
          · subst hyz
            simp only [lexLe, if_pos rfl] at hab hbc ⊢
            exact ih s t hab hbc
          · simp only [lexLe, if_pos rfl] at hab
            simp only [lexLe, if_neg hyz] at hbc ⊢
            exact hbc
        · by_cases hyz : y = z
          · subst hyz
            simp only [lexLe, if_neg hxy] at hab ⊢
            exact hab
          · simp only [lexLe, if_neg hxy] at hab
            simp only [lexLe, if_neg hyz] at hbc
            have h₁ : x < y := of_decide_eq_true hab
            have h₂ : y < z := of_decide_eq_true hbc
            have h₃ : x < z := lt_trans h₁ h₂
            have h₄ : x ≠ z := ne_of_lt h₃
            simp [lexLe, h₄, h₃]

theorem lexLe_antisymm (a b : Str) (hab : lexLe a b = true)
    (hba : lexLe b a = true) : a = b := by
  induction a generalizing b with
  | nil =>
    cases b with
    | nil => rfl
    | cons d s => simp [lexLe] at hba
  | cons c r ih =>
    cases b with
    | nil => simp [lexLe] at hab
    | cons d s =>
      by_cases h : c = d
      · subst h
        simp only [lexLe, if_pos rfl] at hab hba
        rw [ih s hab hba]
      · have hne : d ≠ c := fun hc => h hc.symm
        simp only [lexLe, if_neg h] at hab
        simp only [lexLe, if_neg hne] at hba
        have h₁ : c < d := of_decide_eq_true hab
        have h₂ : d < c := of_decide_eq_true hba
        exact absurd h₂ (asymm h₁)

instance : IsTotal Str lexLeP := ⟨lexLe_total⟩

instance : IsTrans Str lexLeP := ⟨lexLe_trans⟩

instance : IsAntisymm Str lexLeP := ⟨lexLe_antisymm⟩

instance : IsRefl Str lexLeP := ⟨lexLe_refl⟩

/-! Sorted-keys and entry-list lemmas. -/

theorem sortSnapshotKeys_perm (d : suiteData) :
    d.sortSnapshotKeys.Perm (d.Snapshots.map fun p => p.1) :=
  List.perm_insertionSort lexLeP _

theorem sortSnapshotKeys_sorted (d : suiteData) :
    List.Sorted lexLeP d.sortSnapshotKeys :=
  List.sorted_insertionSort lexLeP _

theorem mem_sortSnapshotKeys (d : suiteData) (j : Str) :
    j ∈ d.sortSnapshotKeys ↔ j ∈ d.Snapshots.map fun p => p.1 :=
  (sortSnapshotKeys_perm d).mem_iff

theorem mapGet_keyed (ks : List Str) (f : Str → Str) (j : Str) :
    mapGet (ks.map fun k => (k, f k)) j
      = if j ∈ ks then some (f j) else none := by
  induction ks with
  | nil => rfl
  | cons k rest ih =>
    simp only [List.map_cons, mapGet]
    by_cases hk : k = j
    · subst hk; simp
    · have hjk : j ≠ k := fun hc => hk hc.symm
      simp [hk, ih, List.mem_cons, hjk]

theorem entryList_get (d : suiteData) (j : Str) :
    mapGet (entryList d) j = mapGet d.Snapshots j := by
  unfold entryList
  rw [mapGet_keyed]
  cases hg : mapGet d.Snapshots j with
  | none =>
    have := mapGet_none_not_mem _ _ hg
    rw [if_neg]
    intro hc
    exact this ((mem_sortSnapshotKeys d j).1 hc)
  | some v =>
    have := mem_keys_of_mapGet_some _ _ _ hg
    rw [if_pos ((mem_sortSnapshotKeys d j).2 this)]
    simp [hg]

theorem map_fst_keyed (ks : List Str) (f : Str → Str) :
    (ks.map fun k => (k, f k)).map (fun p => p.1) = ks := by
  induction ks with
  | nil => rfl
  | cons k rest ih => simp [ih]

theorem entryList_keys (d : suiteData) :
    (entryList d).map (fun p => p.1) = d.sortSnapshotKeys := by
  unfold entryList
  exact map_fst_keyed _ _

/-! Path and directory lemmas. -/

theorem splitSlash_ne_nil (p : Str) : splitSlash p ≠ [] := by
  cases p with
  | nil => simp [splitSlash]
  | cons c r =>
    simp only [splitSlash]
    by_cases h : c = '/'
    · simp [h]
    · rw [if_neg h]
      cases splitSlash r with
      | nil => simp
      | cons q qs => simp

theorem joinSlash_splitSlash (p : Str) : joinSlash (splitSlash p) = p := by
  induction p with
  | nil => rfl
  | cons c r ih =>
    simp only [splitSlash]
    by_cases h : c = '/'
    · rw [if_pos h]
      cases hq : splitSlash r with
      | nil => exact absurd hq (splitSlash_ne_nil r)
      | cons q qs =>
        rw [hq] at ih
        simp only [joinSlash, ih, h]
        simp
    · rw [if_neg h]
      cases hq : splitSlash r with
      | nil => exact absurd hq (splitSlash_ne_nil r)
      | cons q qs =>
        rw [hq] at ih
        cases qs with
        | nil => simp only [joinSlash] at ih ⊢; rw [ih]
        | cons q₂ qs₂ =>
          simp only [joinSlash] at ih ⊢
          rw [List.cons_append, ih]

theorem mem_initsNE_self (l : List Str) (h : l ≠ []) : l ∈ initsNE l := by
  induction l with
  | nil => exact absurd rfl h
  | cons x r ih =>
    cases r with
    | nil => simp [initsNE]
    | cons y s =>
      have : y :: s ∈ initsNE (y :: s) := ih (by simp)
      simp only [initsNE]
      exact List.mem_cons_of_mem _ (List.mem_map.2 ⟨y :: s, this, rfl⟩)

theorem mem_ancestors_self (d : Str) : d ∈ ancestors d := by
  unfold ancestors
  have h₁ := mem_initsNE_self (splitSlash d) (splitSlash_ne_nil d)
  have h₂ := joinSlash_splitSlash d
  exact List.mem_map.2 ⟨splitSlash d, h₁, h₂⟩

theorem mkdirAll_dirs_super (fs : Fs) (d x : Str) (h : x ∈ fs.dirs) :
    x ∈ (mkdirAll fs d).dirs := by
  simp only [mkdirAll]
  exact List.mem_append.2 (Or.inr h)

theorem mkdirAll_dirs_anc (fs : Fs) (d x : Str) (h : x ∈ ancestors d) :
    x ∈ (mkdirAll fs d).dirs := by
  simp only [mkdirAll]
  exact List.mem_append.2 (Or.inl h)

theorem mkdirAll_files (fs : Fs) (d : Str) : (mkdirAll fs d).files = fs.files := rfl

theorem writeFileFs_dirs (fs : Fs) (p c : Str) : (writeFileFs fs p c).dirs = fs.dirs := rfl

theorem readFile_writeFileFs_self (fs : Fs) (p c : Str) :
    readFile (writeFileFs fs p c) p = some c := by
  simp only [readFile, writeFileFs]
  exact mapGet_mapSet_self _ _ _

/-! Scanner lemmas for the modelled decoder. -/

theorem isQQ_append (a b : Str) (h : isQQ a = true) : isQQ (a ++ b) = true := by
  cases a with
  | nil => simp [isQQ] at h
  | cons c r =>
    cases r with
    | nil => simp [isQQ] at h
    | cons d s => simpa [isQQ] using h

theorem absorbQuotes_fst_noTriple (s : Str) :
    hasTriple (absorbQuotes s).1 = false := by
  cases s with
  | nil => rfl
  | cons c r =>
    cases r with
    | nil =>
      by_cases h : c = '\''
      · simp [absorbQuotes, h, hasTriple, isQQ]
      · simp [absorbQuotes, h, hasTriple, isQQ]
    | cons d t =>
      by_cases h : c = '\''
      · by_cases h₂ : d = '\''
        · simp [absorbQuotes, h, h₂, hasTriple, isQQ]
        · simp [absorbQuotes, h, h₂, hasTriple, isQQ]
      · simp [absorbQuotes, h, hasTriple, isQQ]

theorem scanValue_delim (u v r : Str) (h : absorbQuotes u = (v, r)) :
    '\'' :: '\'' :: '\'' :: u = v ++ tq ++ r := by
  cases u with
  | nil =>
    simp only [absorbQuotes, Prod.mk.injEq] at h
    obtain ⟨hv, hr⟩ := h
    subst hv; subst hr
    simp [tq]
  | cons f w =>
    cases w with
    | nil =>
      by_cases hf : f = '\''
      · subst hf
        simp [absorbQuotes] at h
        obtain ⟨hv, hr⟩ := h
        subst hv; subst hr
        simp [tq]
      · simp [absorbQuotes, hf] at h
        obtain ⟨hv, hr⟩ := h
        subst hv; subst hr
        simp [tq]
    | cons g z =>
      by_cases hf : f = '\''
      · subst hf
        by_cases hg : g = '\''
        · subst hg
          simp [absorbQuotes] at h
          obtain ⟨hv, hr⟩ := h
          subst hv; subst hr
          simp [tq]
        · simp [absorbQuotes, hg] at h
          obtain ⟨hv, hr⟩ := h
          subst hv; subst hr
          simp [tq]
      · simp [absorbQuotes, hf] at h
        obtain ⟨hv, hr⟩ := h
        subst hv; subst hr
        simp [tq]

theorem scanValue_decomp (s : Str) :
    ∀ v r, scanValue s = some (v, r) → s = v ++ tq ++ r := by
  induction s with
  | nil => intro v r h; simp [scanValue] at h
  | cons c rest ih =>
    intro v r h
    by_cases hc : c = '\''
    · by_cases hq : isQQ rest = true
      · subst hc
        have hs : scanValue ('\'' :: rest) = some (absorbQuotes (rest.drop 2)) := by
          simp [scanValue, hq]
        rw [hs] at h
        cases rest with
        | nil => simp [isQQ] at hq
        | cons d t =>
          cases t with
          | nil => simp [isQQ] at hq
          | cons e u =>
            simp only [isQQ, Bool.and_eq_true, decide_eq_true_eq] at hq
            obtain ⟨hd, he⟩ := hq
            subst hd; subst he
            simp only [List.drop_succ_cons, List.drop_zero] at h
            exact scanValue_delim u v r (Option.some.inj h)
      · subst hc
        have hs : scanValue ('\'' :: rest)
            = (scanValue rest).map fun p => ('\'' :: p.1, p.2) := by
          simp [scanValue, hq]
        rw [hs] at h
        cases hsv : scanValue rest with
        | none => rw [hsv] at h; simp at h
        | some p =>
          obtain ⟨pv, pr⟩ := p
          rw [hsv] at h
          simp at h
          obtain ⟨hv, hr⟩ := h
          subst hv; subst hr
          rw [ih pv pr hsv]
          simp
    · have hs : scanValue (c :: rest)
          = (scanValue rest).map fun p => (c :: p.1, p.2) := by
        simp [scanValue, hc]
      rw [hs] at h
      cases hsv : scanValue rest with
      | none => rw [hsv] at h; simp at h
      | some p =>
        obtain ⟨pv, pr⟩ := p
        rw [hsv] at h
        simp at h
        obtain ⟨hv, hr⟩ := h
        subst hv; subst hr
        rw [ih pv pr hsv]
        simp

theorem scanValue_noTriple (s : Str) :
    ∀ v r, scanValue s = some (v, r) → hasTriple v = false := by
  induction s with
  | nil => intro v r h; simp [scanValue] at h
  | cons c rest ih =>
    intro v r h
    by_cases hc : c = '\''
    · by_cases hq : isQQ rest = true
      · subst hc
        have hs : scanValue ('\'' :: rest) = some (absorbQuotes (rest.drop 2)) := by
          simp [scanValue, hq]
        rw [hs] at h
        have habs := Option.some.inj h
        have := absorbQuotes_fst_noTriple (rest.drop 2)
        rw [habs] at this
        exact this
      · subst hc
        have hs : scanValue ('\'' :: rest)
            = (scanValue rest).map fun p => ('\'' :: p.1, p.2) := by
          simp [scanValue, hq]
        rw [hs] at h
        cases hsv : scanValue rest with
        | none => rw [hsv] at h; simp at h
        | some p =>
          obtain ⟨pv, pr⟩ := p
          rw [hsv] at h
          simp at h
          obtain ⟨hv, hr⟩ := h
          subst hv; subst hr
          have hpv := ih pv pr hsv
          have hqq : isQQ pv = false := by
            cases hpq : isQQ pv with
            | false => rfl
            | true =>
              have hd := scanValue_decomp rest pv pr hsv
              have : isQQ rest = true := by
                rw [hd, List.append_assoc]
                exact isQQ_append pv (tq ++ pr) hpq
              rw [this] at hq
              exact absurd rfl hq
          simp [hasTriple, hpv, hqq]
    · have hs : scanValue (c :: rest)
          = (scanValue rest).map fun p => (c :: p.1, p.2) := by
        simp [scanValue, hc]
      rw [hs] at h
      cases hsv : scanValue rest with
      | none => rw [hsv] at h; simp at h
      | some p =>
        obtain ⟨pv, pr⟩ := p
        rw [hsv] at h
        simp at h
        obtain ⟨hv, hr⟩ := h
        subst hv; subst hr
        have hpv := ih pv pr hsv
        simp [hasTriple, hpv, hc]

theorem scanValue_cons (c : Char) (rest : Str) :
    scanValue (c :: rest) =
      if c = '\'' then
        if isQQ rest then some (absorbQuotes (rest.drop 2))
        else (scanValue rest).map fun p => (c :: p.1, p.2)
      else (scanValue rest).map fun p => (c :: p.1, p.2) := rfl

theorem scanValue_not_delim (c : Char) (rest : Str)
    (h : (decide (c = '\'') && isQQ rest) = false) :
    scanValue (c :: rest) = (scanValue rest).map fun p => (c :: p.1, p.2) := by
  rw [scanValue_cons]
  by_cases hc : c = '\''
  · have hq : isQQ rest = false := by
      rcases Bool.and_eq_false_iff.1 h with h₁ | h₁
      · rw [hc] at h₁; simp at h₁
      · exact h₁
    rw [if_pos hc, if_neg]
    simp [hq]
  · rw [if_neg hc]

theorem isQQ_head_ne (c : Char) (r : Str) (h : ¬c = '\'') : isQQ (c :: r) = false := by
  cases r <;> simp [isQQ, h]

theorem absorbQuotes_not_quote (c : Char) (r : Str) (h : ¬c = '\'') :
    absorbQuotes (c :: r) = ([], c :: r) := by
  cases r <;> simp [absorbQuotes, h]

theorem absorbQuotes_one (d : Char) (r : Str) (h : ¬d = '\'') :
    absorbQuotes ('\'' :: d :: r) = (['\''], d :: r) := by
  simp [absorbQuotes, h]

theorem absorbQuotes_two (r : Str) :
    absorbQuotes ('\'' :: '\'' :: r) = (['\'', '\''], r) := by
  simp [absorbQuotes]

theorem scanValue_append (v : Str) (hv : hasTriple v = false) (r : Str) :
    scanValue (v ++ tq ++ ('\n' :: r)) = some (v, '\n' :: r) := by
  induction v with
  | nil =>
    show scanValue ('\'' :: '\'' :: '\'' :: '\n' :: r) = some ([], '\n' :: r)
    rw [scanValue_cons, if_pos rfl, if_pos (by simp [isQQ])]
    show some (absorbQuotes ('\n' :: r)) = some (([] : Str), '\n' :: r)
    rw [absorbQuotes_not_quote '\n' r (by decide)]
  | cons c v₁ ih =>
    simp only [hasTriple, Bool.or_eq_false_iff, Bool.and_eq_false_iff] at hv
    obtain ⟨hv₁, hv₂⟩ := hv
    by_cases hc : c = '\''
    · subst hc
      have hq : isQQ v₁ = false := by
        rcases hv₁ with h | h
        · simp at h
        · exact h
      cases v₁ with
      | nil =>
        show scanValue ('\'' :: '\'' :: '\'' :: '\'' :: '\n' :: r)
            = some (['\''], '\n' :: r)
        rw [scanValue_cons, if_pos rfl, if_pos (by simp [isQQ])]
        show some (absorbQuotes ('\'' :: '\n' :: r)) = some ((['\''] : Str), '\n' :: r)
        rw [absorbQuotes_one '\n' r (by decide)]
      | cons d w =>
        by_cases hd : d = '\''
        · subst hd
          cases w with
          | nil =>
            show scanValue ('\'' :: '\'' :: '\'' :: '\'' :: '\'' :: '\n' :: r)
                = some (['\'', '\''], '\n' :: r)
            rw [scanValue_cons, if_pos rfl, if_pos (by simp [isQQ])]
            show some (absorbQuotes ('\'' :: '\'' :: '\n' :: r))
                = some ((['\'', '\''] : Str), '\n' :: r)
            rw [absorbQuotes_two]
          | cons e u =>
            by_cases he : e = '\''
            · subst he; simp [isQQ] at hq
            · have hrec := ih hv₂
              simp only [List.cons_append] at hrec ⊢
              rw [scanValue_not_delim '\'' _ (by simp [isQQ, he]), hrec]
              rfl
        · have hrec := ih hv₂
          simp only [List.cons_append] at hrec ⊢
          rw [scanValue_not_delim '\'' _ (by rw [isQQ_head_ne d _ hd]; simp), hrec]
          rfl
    · have hrec := ih hv₂
      simp only [List.cons_append] at hrec ⊢
      rw [scanValue_not_delim c _ (by simp [hc]), hrec]
      rfl

theorem scanKey_quote (k : Str) : ∀ t, scanKey (quoteBody k ++ '"' :: t) = some (k, t) := by
  unfold scanKey
  induction k with
  | nil => intro t; simp [quoteBody, scanKeyEsc]
  | cons c k₁ ih =>
    intro t
    by_cases h₁ : c = '"'
    · subst h₁
      simp [quoteBody, escSeq, scanKeyEsc, unescape, ih]
    · by_cases h₂ : c = '\\'
      · subst h₂
        simp [quoteBody, escSeq, scanKeyEsc, unescape, ih]
      · by_cases h₃ : c = '\n'
        · subst h₃
          simp [quoteBody, escSeq, scanKeyEsc, unescape, ih]
        · by_cases h₄ : c = '\t'
          · subst h₄
            simp [quoteBody, escSeq, scanKeyEsc, unescape, ih]
          · by_cases h₅ : c = '\r'
            · subst h₅
              simp [quoteBody, escSeq, scanKeyEsc, unescape, ih]
            · simp [quoteBody, escSeq, scanKeyEsc, unescape, ih, h₁, h₂, h₃, h₄, h₅]

/-! Parser round-trip lemmas. -/

theorem dropLine_append (l : Str) (h : ∀ c ∈ l, c ≠ '\n') (r : Str) :
    dropLine (l ++ '\n' :: r) = r := by
  induction l with
  | nil => simp [dropLine]
  | cons c t ih =>
    have hc : c ≠ '\n' := h c (List.mem_cons_self ..)
    have ht : ∀ c ∈ t, c ≠ '\n' := fun x hx => h x (List.mem_cons_of_mem _ hx)
    simp [dropLine, hc, ih ht]

theorem encodeEntry_len_pos (k v : Str) : 1 ≤ (encodeEntry k v).length := by
  simp [encodeEntry, goQuote]

theorem parseEntriesF_encode (es : List (Str × Str)) :
    ∀ fuel, (∀ p ∈ es, hasTriple p.2 = false) →
      (encodeEntriesL es).length ≤ fuel →
      parseEntriesF fuel (encodeEntriesL es) = .ok es := by
  induction es with
  | nil => intro fuel _ _; cases fuel <;> rfl
  | cons hd es₁ ih =>
    intro fuel hval hlen
    obtain ⟨k, v⟩ := hd
    have hv : hasTriple v = false := hval (k, v) (List.mem_cons_self ..)
    have hval₁ : ∀ p ∈ es₁, hasTriple p.2 = false :=
      fun p hp => hval p (List.mem_cons_of_mem _ hp)
    have hshape : encodeEntriesL ((k, v) :: es₁)
        = '"' :: (quoteBody k ++ '"' ::
            (eqMark ++ (v ++ tq ++ ('\n' :: encodeEntriesL es₁)))) := by
      simp [encodeEntriesL, encodeEntry, goQuote, eqMark, tq]
    rw [hshape] at hlen ⊢
    cases fuel with
    | zero => simp at hlen
    | succ f =>
      have hkey : scanKey (quoteBody k ++ '"' ::
          (eqMark ++ (v ++ tq ++ ('\n' :: encodeEntriesL es₁))))
          = some (k, eqMark ++ (v ++ tq ++ ('\n' :: encodeEntriesL es₁))) :=
        scanKey_quote k _
      have htake : (eqMark ++ (v ++ tq ++ ('\n' :: encodeEntriesL es₁))).take 7
          = eqMark := List.take_left' rfl
      have hdrop : (eqMark ++ (v ++ tq ++ ('\n' :: encodeEntriesL es₁))).drop 7
          = v ++ tq ++ ('\n' :: encodeEntriesL es₁) := List.drop_left' rfl
      have hfuel : (encodeEntriesL es₁).length ≤ f := by
        simp only [List.length_cons, List.length_append] at hlen
        omega
      simp only [parseEntriesF, if_pos rfl, hkey, htake, if_pos, hdrop,
        scanValue_append v hv (encodeEntriesL es₁), ih f hval₁ hfuel]

theorem headerText_decomp :
    headerText = '#' :: (" Generated by goldga. DO NOT EDIT.".data
      ++ '\n' :: '[' :: snapTag) := by
  decide

theorem parsePreludeF_header (fuel : Nat) (h : 2 ≤ fuel) (x : Str) :
    parsePreludeF fuel (headerText ++ x) = .ok (some x) := by
  obtain ⟨f, rfl⟩ : ∃ f, fuel = f + 2 := ⟨fuel - 2, by omega⟩
  rw [headerText_decomp]
  have hdrop : dropLine ((" Generated by goldga. DO NOT EDIT.".data
      ++ '\n' :: '[' :: snapTag) ++ x) = '[' :: (snapTag ++ x) := by
    rw [List.append_assoc, List.cons_append]
    exact dropLine_append _ (by decide) _
  have htake : (snapTag ++ x).take 11 = snapTag := List.take_left' (by decide)
  have hdrop₂ : (snapTag ++ x).drop 11 = x := List.drop_left' (by decide)
  simp only [List.cons_append, parsePreludeF, if_pos rfl, hdrop]
  have h₁ : ¬('[' : Char) = '#' := by decide
  have h₂ : ¬('[' : Char) = '\n' := by decide
  simp only [parsePreludeF, if_neg h₁, if_neg h₂, List.cons_append, List.append_eq]
  simp [htake, hdrop₂]

theorem decodeSuite_encode (d : suiteData)
    (h : ∀ p ∈ entryList d, hasTriple p.2 = false) :
    decodeSuite (encodeSuiteData d) = .ok (entryList d) := by
  unfold decodeSuite encodeSuiteData
  have hlen : (headerText ++ encodeEntriesL (entryList d)).length
      = 48 + (encodeEntriesL (entryList d)).length := by
    simp [headerText]
    omega
  rw [parsePreludeF_header _ (by rw [hlen]; omega) _]
  exact parseEntriesF_encode (entryList d) _ h (by rw [hlen]; omega)

theorem parseEntriesF_values (fuel : Nat) :
    ∀ s es, parseEntriesF fuel s = .ok es → ∀ p ∈ es, hasTriple p.2 = false := by
  induction fuel with
  | zero =>
    intro s es h
    cases s with
    | nil => cases h; intro p hp; cases hp
    | cons c r => simp [parseEntriesF] at h
  | succ f ih =>
    intro s es h
    cases s with
    | nil => cases h; intro p hp; cases hp
    | cons c r =>
      by_cases hc : c = '"'
      · simp only [parseEntriesF, if_pos hc] at h
        cases hk : scanKey r with
        | none => rw [hk] at h; cases h
        | some pk =>
          obtain ⟨k, r₁⟩ := pk
          simp only [hk] at h
          by_cases ht : r₁.take 7 = eqMark
          · rw [if_pos ht] at h
            cases hsv : scanValue (r₁.drop 7) with
            | none => rw [hsv] at h; cases h
            | some pv =>
              obtain ⟨v, r₂⟩ := pv
              simp only [hsv] at h
              cases r₂ with
              | nil => cases h
              | cons c₂ r₃ =>
                dsimp only at h
                by_cases hnl : c₂ = '\n'
                · rw [if_pos hnl] at h
                  cases hrec : parseEntriesF f r₃ with
                  | error m => rw [hrec] at h; cases h
                  | ok es₁ =>
                    simp only [hrec] at h
                    cases h
                    intro p hp
                    rcases List.mem_cons.1 hp with h₁ | h₁
                    · subst h₁
                      exact scanValue_noTriple _ _ _ hsv
                    · exact ih r₃ es₁ hrec p h₁
                · rw [if_neg hnl] at h; cases h
          · rw [if_neg ht] at h; cases h
      · simp only [parseEntriesF, if_neg hc] at h
        cases h

theorem decodeSuite_values (c : Str) (es : List (Str × Str))
    (h : decodeSuite c = .ok es) : ∀ p ∈ es, hasTriple p.2 = false := by
  unfold decodeSuite at h
  cases hp : parsePreludeF (c.length + 1) c with
  | error m => rw [hp] at h; cases h
  | ok o =>
    rw [hp] at h
    cases o with
    | none => cases h; intro p hp₁; cases hp₁
    | some rest => exact parseEntriesF_values _ _ _ h

/-! Storage-level helper lemmas. -/

theorem getSuiteData_ok_decomp (s : SuiteStorage) (fs : Fs) (d : suiteData)
    (h : s.getSuiteData fs = .ok d) :
    ∃ c, readFile fs s.Path = some c ∧ decodeSuite c = .ok d.Snapshots := by
  unfold SuiteStorage.getSuiteData at h
  cases hr : readFile fs s.Path with
  | none => rw [hr] at h; cases h
  | some content =>
    rw [hr] at h
    cases hd : decodeSuite content with
    | error m => simp only [hd] at h; cases h
    | ok snaps =>
      simp only [hd] at h
      cases h
      exact ⟨content, rfl, hd⟩

theorem getSuiteData_values (s : SuiteStorage) (fs : Fs) (d : suiteData)
    (h : s.getSuiteData fs = .ok d) :
    ∀ p ∈ d.Snapshots, hasTriple p.2 = false := by
  obtain ⟨c, _, hd⟩ := getSuiteData_ok_decomp s fs d h
  exact decodeSuite_values c _ hd

theorem mapSet_values (m : List (Str × Str)) (k v : Str)
    (hm : ∀ p ∈ m, hasTriple p.2 = false) (hv : hasTriple v = false) :
    ∀ p ∈ mapSet m k v, hasTriple p.2 = false := by
  intro p hp
  rcases List.mem_cons.1 hp with h | h
  · subst h; exact hv
  · exact hm p (List.mem_filter.1 h).1

theorem entryList_values (d : suiteData)
    (hm : ∀ p ∈ d.Snapshots, hasTriple p.2 = false) :
    ∀ p ∈ entryList d, hasTriple p.2 = false := by
  intro p hp
  unfold entryList at hp
  obtain ⟨k, hk, hpk⟩ := List.mem_map.1 hp
  subst hpk
  cases hg : mapGet d.Snapshots k with
  | none => simp [hg, hasTriple]
  | some v =>
    simp only [hg, Option.getD_some]
    exact hm (k, v) (mapGet_some_mem _ _ _ hg)

theorem getSuiteData_encode (s : SuiteStorage) (fs : Fs) (d : suiteData)
    (hr : readFile fs s.Path = some (encodeSuiteData d))
    (hvals : ∀ p ∈ d.Snapshots, hasTriple p.2 = false) :
    s.getSuiteData fs = .ok ⟨entryList d⟩ := by
  unfold SuiteStorage.getSuiteData
  rw [hr]
  simp only [decodeSuite_encode d (entryList_values d hvals)]

theorem suiteWrite_ok_decomp (s : SuiteStorage) (fs : Fs) (v : Str) (fs' : Fs)
    (h : s.Write fs v = (none, fs')) :
    ∃ base, (∀ p ∈ base, hasTriple p.2 = false) ∧
      fs' = writeFileFs (mkdirAll fs (dirOf s.Path)) s.Path
              (encodeSuiteData ⟨mapSet base s.Name v⟩) := by
  unfold SuiteStorage.Write at h
  cases hg : s.getSuiteData fs with
  | ok data =>
    rw [hg] at h
    refine ⟨data.Snapshots, getSuiteData_values s fs data hg, ?_⟩
    unfold SuiteStorage.writeSnaps at h
    have := congrArg Prod.snd h
    exact this.symm
  | error e =>
    rw [hg] at h
    dsimp only at h
    by_cases hnf : e.isNotFound = true
    · rw [if_pos hnf] at h
      refine ⟨[], ?_, ?_⟩
      · intro p hp; cases hp
      · unfold SuiteStorage.writeSnaps at h
        have := congrArg Prod.snd h
        exact this.symm
    · rw [if_neg hnf] at h
      have := congrArg Prod.fst h
      simp at this

theorem suiteRead_after_write (s : SuiteStorage) (fs : Fs) (v : Str) (fs' : Fs)
    (hv : hasTriple v = false) (h : s.Write fs v = (none, fs')) :
    s.Read fs' = .ok v := by
  obtain ⟨base, hbase, rfl⟩ := suiteWrite_ok_decomp s fs v fs' h
  have hvals : ∀ p ∈ (⟨mapSet base s.Name v⟩ : suiteData).Snapshots,
      hasTriple p.2 = false := mapSet_values base s.Name v hbase hv
  have hget := getSuiteData_encode s
    (writeFileFs (mkdirAll fs (dirOf s.Path)) s.Path
      (encodeSuiteData ⟨mapSet base s.Name v⟩))
    ⟨mapSet base s.Name v⟩ (readFile_writeFileFs_self _ _ _) hvals
  unfold SuiteStorage.Read
  rw [hget]
  have hm : mapGet (entryList ⟨mapSet base s.Name v⟩) s.Name = some v := by
    rw [entryList_get]
    exact mapGet_mapSet_self _ _ _
  simp only [hm]

/-! Congruence of the encoder under key permutation and pointwise-equal
lookups (for byte-level idempotence). -/

theorem sortKeys_eq_of_perm (m₁ m₂ : List (Str × Str))
    (hperm : (m₂.map fun p => p.1).Perm (m₁.map fun p => p.1)) :
    suiteData.sortSnapshotKeys ⟨m₂⟩ = suiteData.sortSnapshotKeys ⟨m₁⟩ := by
  have hperm₂ : (suiteData.sortSnapshotKeys ⟨m₂⟩).Perm (suiteData.sortSnapshotKeys ⟨m₁⟩) :=
    (sortSnapshotKeys_perm ⟨m₂⟩).trans (hperm.trans (sortSnapshotKeys_perm ⟨m₁⟩).symm)
  exact List.eq_of_perm_of_sorted hperm₂
    (sortSnapshotKeys_sorted ⟨m₂⟩) (sortSnapshotKeys_sorted ⟨m₁⟩)

theorem encodeSuiteData_congr (m₁ m₂ : List (Str × Str))
    (hperm : (m₂.map fun p => p.1).Perm (m₁.map fun p => p.1))
    (hget : ∀ j, mapGet m₂ j = mapGet m₁ j) :
    encodeSuiteData ⟨m₂⟩ = encodeSuiteData ⟨m₁⟩ := by
  unfold encodeSuiteData entryList
  rw [sortKeys_eq_of_perm m₁ m₂ hperm]
  have hfun : (fun k => (k, (mapGet m₂ k).getD []))
      = fun k => (k, (mapGet m₁ k).getD []) := by
    funext k
    rw [hget k]
  rw [hfun]

theorem keys_mapSet_perm (m₁ m₂ : List (Str × Str)) (k v : Str)
    (h : (m₂.map fun p => p.1).Perm (m₁.map fun p => p.1)) :
    ((mapSet m₂ k v).map fun p => p.1).Perm ((mapSet m₁ k v).map fun p => p.1) := by
  simp only [mapSet, List.map_cons, map_fst_filter_ne]
  exact (h.filter _).cons k

theorem mapSet_mapSet_self (m : List (Str × Str)) (k v : Str) :
    mapSet (mapSet m k v) k v = mapSet m k v := by
  simp only [mapSet, List.filter_cons]
  have hd : (decide ((k, v).1 ≠ k)) = false := by simp
  rw [hd]
  simp [List.filter_filter]

theorem mapGet_mapSet_congr (m₁ m₂ : List (Str × Str)) (k v : Str)
    (h : ∀ j, mapGet m₂ j = mapGet m₁ j) (j : Str) :
    mapGet (mapSet m₂ k v) j = mapGet (mapSet m₁ k v) j := by
  by_cases hj : j = k
  · subst hj
    rw [mapGet_mapSet_self, mapGet_mapSet_self]
  · rw [mapGet_mapSet_ne _ _ _ _ hj, mapGet_mapSet_ne _ _ _ _ hj]
    exact h j

/-! Concrete fixtures for witnesses and counterexamples. -/

def pDemo : Str := "dir/golden.toml".data

def fsEmpty : Fs := ⟨[], []⟩

def fsEmptyFile : Fs := ⟨[(pDemo, [])], []⟩

def kCaseA : Str := "caseA".data

def kCaseB : Str := "caseB".data

def vHello : Str := "hello\nworld".data

def vX : Str := "x".data

def vY : Str := "y".data

def kA : Str := "a".data

def kB : Str := "b".data

def fsSuiteA : Fs := ⟨[(pDemo, encodeSuiteData ⟨[(kA, vX)]⟩)], []⟩

def badToml : Str := "snapshots = garbage".data

def fsBad : Fs := ⟨[(pDemo, badToml)], []⟩

/-! The claims. -/

/-- Claim C1: for both store kinds, for every key and every payload not
containing the triple-quote delimiter, a write followed by a read of the
same configuration returns exactly the payload; for the suite store this
covers the read after any completed write, and on an absent suite file the
write always completes. -/
theorem claim_C1_round_trip :
    (∀ (s : SingleStorage) (fs : Fs) (v : Str),
      s.Read (s.Write fs v).2 = .ok v)
    ∧ (∀ (s : SuiteStorage) (fs : Fs) (v : Str) (fs' : Fs),
      hasTriple v = false → s.Write fs v = (none, fs') → s.Read fs' = .ok v)
    ∧ (∀ (s : SuiteStorage) (fs : Fs) (v : Str),
      hasTriple v = false → fileExists fs s.Path = false →
        ∃ fs', s.Write fs v = (none, fs') ∧ s.Read fs' = .ok v) := by
  refine ⟨?_, ?_, ?_⟩
  · intro s fs v
    unfold SingleStorage.Read SingleStorage.Write
    simp only [readFile_writeFileFs_self]
  · intro s fs v fs' hv hw
    exact suiteRead_after_write s fs v fs' hv hw
  · intro s fs v hv hex
    have hr : readFile fs s.Path = none := by
      unfold fileExists at hex
      cases h : readFile fs s.Path with
      | none => rfl
      | some c => rw [h] at hex; simp at hex
    have hg : s.getSuiteData fs = .error .notFound := by
      unfold SuiteStorage.getSuiteData
      rw [hr]
    have hw : s.Write fs v = s.writeSnaps fs (mapSet newSuiteData.Snapshots s.Name v) := by
      unfold SuiteStorage.Write
      rw [hg]
      dsimp only
      simp [GoErr.isNotFound]
    refine ⟨(s.writeSnaps fs (mapSet newSuiteData.Snapshots s.Name v)).2, ?_, ?_⟩
    · rw [hw]; exact rfl
    · exact suiteRead_after_write s fs v _ hv (by rw [hw]; exact rfl)

theorem claim_C1_witness :
    SuiteStorage.Read ⟨pDemo, kCaseA⟩
        (SuiteStorage.Write ⟨pDemo, kCaseA⟩ fsEmpty vHello).2 = .ok vHello :=
  claim_C1_round_trip.2.1 ⟨pDemo, kCaseA⟩ fsEmpty vHello _ (by decide) (by rfl)

/-- Claim C2: all three absence cases surface the distinguished not-found
condition: an absent single file, an absent suite file, and a suite file
that decodes but lacks the configured key. -/
theorem claim_C2_not_found :
    (∀ (s : SingleStorage) (fs : Fs), readFile fs s.Path = none →
      s.Read fs = .error (.wrap msgReadFile .notFound)
        ∧ (GoErr.wrap msgReadFile .notFound).isNotFound = true)
    ∧ (∀ (s : SuiteStorage) (fs : Fs), readFile fs s.Path = none →
      s.Read fs = .error .notFound ∧ GoErr.notFound.isNotFound = true)
    ∧ (∀ (s : SuiteStorage) (fs : Fs) (c : Str) (snaps : List (Str × Str)),
      readFile fs s.Path = some c → decodeSuite c = .ok snaps →
      mapGet snaps s.Name = none →
      s.Read fs = .error .notFound ∧ GoErr.notFound.isNotFound = true) := by
  refine ⟨?_, ?_, ?_⟩
  · intro s fs hr
    constructor
    · unfold SingleStorage.Read
      rw [hr]
    · rfl
  · intro s fs hr
    constructor
    · unfold SuiteStorage.Read SuiteStorage.getSuiteData
      rw [hr]
    · rfl
  · intro s fs c snaps hr hd hm
    constructor
    · unfold SuiteStorage.Read SuiteStorage.getSuiteData
      rw [hr]
      simp only [hd]
      rw [hm]
    · rfl

theorem claim_C2_witness :
    SingleStorage.Read ⟨pDemo⟩ fsEmpty = .error (.wrap msgReadFile .notFound)
    ∧ SuiteStorage.Read ⟨pDemo, kA⟩ fsEmpty = .error .notFound
    ∧ SuiteStorage.Read ⟨pDemo, kB⟩ fsSuiteA = .error .notFound :=
  ⟨(claim_C2_not_found.1 ⟨pDemo⟩ fsEmpty rfl).1,
   (claim_C2_not_found.2.1 ⟨pDemo, kA⟩ fsEmpty rfl).1,
   (claim_C2_not_found.2.2 ⟨pDemo, kB⟩ fsSuiteA (encodeSuiteData ⟨[(kA, vX)]⟩)
      [(kA, vX)] rfl (by decide) (by decide)).1⟩

/-- Claim C3: a malformed suite file makes the read fail with a decode
error that is not the not-found condition; the write treats only absence
of the file as the start-from-empty case, and propagates any other decode
failure without writing. -/
theorem claim_C3_decode_vs_absence :
    (∀ (s : SuiteStorage) (fs : Fs) (c m : Str),
      readFile fs s.Path = some c → decodeSuite c = .error m →
      s.Read fs = .error (.wrap msgToml (.decodeErr m))
        ∧ (GoErr.wrap msgToml (.decodeErr m)).isNotFound = false)
    ∧ (∀ (s : SuiteStorage) (fs : Fs) (c m v : Str),
      readFile fs s.Path = some c → decodeSuite c = .error m →
      s.Write fs v = (some (.wrap msgToml (.decodeErr m)), fs))
    ∧ (∀ (s : SuiteStorage) (fs : Fs) (v : Str),
      readFile fs s.Path = none → (s.Write fs v).1 = none) := by
  have hget : ∀ (s : SuiteStorage) (fs : Fs) (c m : Str),
      readFile fs s.Path = some c → decodeSuite c = .error m →
      s.getSuiteData fs = .error (.wrap msgToml (.decodeErr m)) := by
    intro s fs c m hr hd
    unfold SuiteStorage.getSuiteData
    rw [hr]
    simp only [hd]
  refine ⟨?_, ?_, ?_⟩
  · intro s fs c m hr hd
    constructor
    · unfold SuiteStorage.Read
      rw [hget s fs c m hr hd]
    · rfl
  · intro s fs c m v hr hd
    unfold SuiteStorage.Write
    rw [hget s fs c m hr hd]
    dsimp only
    rw [if_neg]
    intro hc
    simp [GoErr.isNotFound] at hc
  · intro s fs v hr
    have hg : s.getSuiteData fs = .error .notFound := by
      unfold SuiteStorage.getSuiteData
      rw [hr]
    unfold SuiteStorage.Write
    rw [hg]
    dsimp only
    simp [GoErr.isNotFound]
    exact rfl

theorem claim_C3_witness :
    SuiteStorage.Read ⟨pDemo, kA⟩ fsBad = .error (.wrap msgToml (.decodeErr errToken))
    ∧ SuiteStorage.Write ⟨pDemo, kA⟩ fsBad vX
        = (some (.wrap msgToml (.decodeErr errToken)), fsBad)
    ∧ (SuiteStorage.Write ⟨pDemo, kA⟩ fsEmpty vX).1 = none :=
  ⟨(claim_C3_decode_vs_absence.1 ⟨pDemo, kA⟩ fsBad badToml errToken rfl (by decide)).1,
   claim_C3_decode_vs_absence.2.1 ⟨pDemo, kA⟩ fsBad badToml errToken vX rfl (by decide),
   claim_C3_decode_vs_absence.2.2 ⟨pDemo, kA⟩ fsEmpty vX rfl⟩

/-- Claim C4: every file emitted by a completed suite write consists of the
header followed by the serialized entries, whose keys appear in ascending
lexicographic order, whatever the insertion history was. -/
theorem claim_C4_sorted_keys :
    ∀ (s : SuiteStorage) (fs : Fs) (v : Str) (fs' : Fs),
      s.Write fs v = (none, fs') →
      ∃ es, readFile fs' s.Path = some (headerText ++ encodeEntriesL es)
        ∧ List.Sorted lexLeP (es.map fun p => p.1) := by
  intro s fs v fs' h
  obtain ⟨base, _, rfl⟩ := suiteWrite_ok_decomp s fs v fs' h
  refine ⟨entryList ⟨mapSet base s.Name v⟩, ?_, ?_⟩
  · exact readFile_writeFileFs_self _ _ _
  · rw [entryList_keys]
    exact sortSnapshotKeys_sorted _

theorem claim_C4_witness :
    ∃ es, readFile (SuiteStorage.Write ⟨pDemo, kCaseB⟩
        (SuiteStorage.Write ⟨pDemo, kCaseA⟩ fsEmpty vHello).2 vX).2 pDemo
      = some (headerText ++ encodeEntriesL es)
      ∧ List.Sorted lexLeP (es.map fun p => p.1) :=
  claim_C4_sorted_keys ⟨pDemo, kCaseB⟩
    (SuiteStorage.Write ⟨pDemo, kCaseA⟩ fsEmpty vHello).2 vX _ (by decide)

/-- Claim C9: when decoding the existing document fails with anything other
than the not-found condition, the suite write returns that very error and
the filesystem value is left exactly as it was: no directory creation, no
truncation, no rewrite. -/
theorem claim_C9_no_mutation_on_decode_error :
    ∀ (s : SuiteStorage) (fs : Fs) (e : GoErr) (v : Str),
      s.getSuiteData fs = .error e → e.isNotFound = false →
      s.Write fs v = (some e, fs) := by
  intro s fs e v hg hnf
  unfold SuiteStorage.Write
  rw [hg]
  dsimp only
  rw [if_neg]
  simp [hnf]

theorem claim_C9_witness :
    SuiteStorage.Write ⟨pDemo, kA⟩ fsBad vX
      = (some (.wrap msgToml (.decodeErr errToken)), fsBad) :=
  claim_C9_no_mutation_on_decode_error ⟨pDemo, kA⟩ fsBad
    (.wrap msgToml (.decodeErr errToken)) vX (by decide) (by decide)

/-- Claim C10: for the single-file store the round trip is unconditional:
any payload whatsoever (delimiters, empty, arbitrary bytes) is stored
verbatim as the whole file and read back exactly. -/
theorem claim_C10_single_unconditional :
    ∀ (s : SingleStorage) (fs : Fs) (v : Str),
      (s.Write fs v).1 = none ∧ s.Read (s.Write fs v).2 = .ok v := by
  intro s fs v
  constructor
  · rfl
  · unfold SingleStorage.Read SingleStorage.Write
    simp only [readFile_writeFileFs_self]

/-- Claim C5 counterexample: writing key `b` with the triple-quote
delimiter as its value to a suite document holding `a` completes, but the
rewritten file no longer decodes, so the subsequent read of `a` fails with
a decode error instead of returning the original value. -/
theorem claim_C5_counterexample :
    (SuiteStorage.Write ⟨pDemo, kB⟩ fsSuiteA tq).1 = none
    ∧ SuiteStorage.Read ⟨pDemo, kA⟩
        (SuiteStorage.Write ⟨pDemo, kB⟩ fsSuiteA tq).2 ≠ .ok vX
    ∧ SuiteStorage.Read ⟨pDemo, kA⟩
        (SuiteStorage.Write ⟨pDemo, kB⟩ fsSuiteA tq).2
      = .error (.wrap msgToml (.decodeErr errNl)) := by
  refine ⟨by decide, by decide, by decide⟩

/-- Claim C5 (amended): writing key `b` with any value that does not
contain the triple-quote delimiter to an existing decodable suite document
that holds key `a` leaves `a` unchanged, and its read still returns the
original value. -/
theorem claim_C5_amended_isolation :
    ∀ (fs : Fs) (p va vb c : Str) (d : List (Str × Str)),
      readFile fs p = some c → decodeSuite c = .ok d → mapGet d kA = some va →
      hasTriple vb = false →
      ∃ fs', SuiteStorage.Write ⟨p, kB⟩ fs vb = (none, fs')
        ∧ SuiteStorage.Read ⟨p, kA⟩ fs' = .ok va := by
  intro fs p va vb c d hr hd hm hv
  have hg : SuiteStorage.getSuiteData ⟨p, kB⟩ fs = .ok ⟨d⟩ := by
    unfold SuiteStorage.getSuiteData
    rw [hr]
    simp only [hd]
  have hw : SuiteStorage.Write ⟨p, kB⟩ fs vb
      = SuiteStorage.writeSnaps ⟨p, kB⟩ fs (mapSet d kB vb) := by
    unfold SuiteStorage.Write
    rw [hg]
  have hdvals : ∀ q ∈ d, hasTriple q.2 = false := decodeSuite_values c d hd
  have hvals : ∀ q ∈ mapSet d kB vb, hasTriple q.2 = false :=
    mapSet_values d kB vb hdvals hv
  refine ⟨(SuiteStorage.writeSnaps ⟨p, kB⟩ fs (mapSet d kB vb)).2, ?_, ?_⟩
  · rw [hw]; exact rfl
  · have hget := getSuiteData_encode ⟨p, kA⟩
      (writeFileFs (mkdirAll fs (dirOf p)) p (encodeSuiteData ⟨mapSet d kB vb⟩))
      ⟨mapSet d kB vb⟩ (readFile_writeFileFs_self _ _ _) hvals
    unfold SuiteStorage.Read
    rw [show (SuiteStorage.writeSnaps ⟨p, kB⟩ fs (mapSet d kB vb)).2
        = writeFileFs (mkdirAll fs (dirOf p)) p (encodeSuiteData ⟨mapSet d kB vb⟩)
        from rfl]
    rw [hget]
    have hma : mapGet (entryList ⟨mapSet d kB vb⟩) kA = some va := by
      rw [entryList_get]
      rw [mapGet_mapSet_ne d kB vb kA (by decide)]
      exact hm
    simp only [hma]

theorem claim_C5_witness :
    ∃ fs', SuiteStorage.Write ⟨pDemo, kB⟩ fsSuiteA vY = (none, fs')
      ∧ SuiteStorage.Read ⟨pDemo, kA⟩ fs' = .ok vX :=
  claim_C5_amended_isolation fsSuiteA pDemo vX vY (encodeSuiteData ⟨[(kA, vX)]⟩)
    [(kA, vX)] rfl (by decide) (by decide) (by decide)

/-- Claim C6 counterexample: writing the same key-value pair twice is not
byte-level idempotent for a value containing the triple-quote delimiter:
the first write completes, the second fails to decode the file it itself
produced and returns an error instead of producing identical bytes. -/
theorem claim_C6_counterexample :
    (SuiteStorage.Write ⟨pDemo, kA⟩ fsEmpty tq).1 = none
    ∧ (SuiteStorage.Write ⟨pDemo, kA⟩
        (SuiteStorage.Write ⟨pDemo, kA⟩ fsEmpty tq).2 tq).1 ≠ none := by
  refine ⟨by decide, by decide⟩

/-- Claim C6 (amended): for a value that does not contain the triple-quote
delimiter, writing the same key-value pair twice is byte-level idempotent:
the second write also completes and leaves the file contents byte-for-byte
identical to what the first write produced. -/
theorem claim_C6_amended_idempotent :
    ∀ (s : SuiteStorage) (fs fs₁ : Fs) (v : Str),
      hasTriple v = false → s.Write fs v = (none, fs₁) →
      ∃ fs₂, s.Write fs₁ v = (none, fs₂)
        ∧ readFile fs₂ s.Path = readFile fs₁ s.Path := by
  intro s fs fs₁ v hv h
  obtain ⟨base, hbase, rfl⟩ := suiteWrite_ok_decomp s fs v fs₁ h
  have hvals : ∀ q ∈ mapSet base s.Name v, hasTriple q.2 = false :=
    mapSet_values base s.Name v hbase hv
  have hget := getSuiteData_encode s
    (writeFileFs (mkdirAll fs (dirOf s.Path)) s.Path
      (encodeSuiteData ⟨mapSet base s.Name v⟩))
    ⟨mapSet base s.Name v⟩ (readFile_writeFileFs_self _ _ _) hvals
  have hw₂ : s.Write (writeFileFs (mkdirAll fs (dirOf s.Path)) s.Path
        (encodeSuiteData ⟨mapSet base s.Name v⟩)) v
      = s.writeSnaps (writeFileFs (mkdirAll fs (dirOf s.Path)) s.Path
          (encodeSuiteData ⟨mapSet base s.Name v⟩))
        (mapSet (entryList ⟨mapSet base s.Name v⟩) s.Name v) := by
    unfold SuiteStorage.Write
    rw [hget]
  have hperm : ((entryList ⟨mapSet base s.Name v⟩).map fun p => p.1).Perm
      ((mapSet base s.Name v).map fun p => p.1) := by
    rw [entryList_keys]
    exact sortSnapshotKeys_perm ⟨mapSet base s.Name v⟩
  have hgetp : ∀ j, mapGet (entryList ⟨mapSet base s.Name v⟩) j
      = mapGet (mapSet base s.Name v) j := fun j => entryList_get _ j
  have henc : encodeSuiteData ⟨mapSet (entryList ⟨mapSet base s.Name v⟩) s.Name v⟩
      = encodeSuiteData ⟨mapSet base s.Name v⟩ := by
    have h₁ := encodeSuiteData_congr (mapSet (mapSet base s.Name v) s.Name v)
      (mapSet (entryList ⟨mapSet base s.Name v⟩) s.Name v)
      (keys_mapSet_perm _ _ s.Name v hperm)
      (mapGet_mapSet_congr _ _ s.Name v hgetp)
    rw [mapSet_mapSet_self] at h₁
    exact h₁
  refine ⟨(s.writeSnaps (writeFileFs (mkdirAll fs (dirOf s.Path)) s.Path
      (encodeSuiteData ⟨mapSet base s.Name v⟩))
      (mapSet (entryList ⟨mapSet base s.Name v⟩) s.Name v)).2, ?_, ?_⟩
  · rw [hw₂]; exact rfl
  · show readFile (writeFileFs (mkdirAll (writeFileFs (mkdirAll fs (dirOf s.Path))
          s.Path (encodeSuiteData ⟨mapSet base s.Name v⟩)) (dirOf s.Path)) s.Path
        (encodeSuiteData ⟨mapSet (entryList ⟨mapSet base s.Name v⟩) s.Name v⟩)) s.Path
      = readFile (writeFileFs (mkdirAll fs (dirOf s.Path)) s.Path
        (encodeSuiteData ⟨mapSet base s.Name v⟩)) s.Path
    rw [readFile_writeFileFs_self, readFile_writeFileFs_self, henc]

theorem claim_C6_witness :
    ∃ fs₂, SuiteStorage.Write ⟨pDemo, kCaseA⟩
        (SuiteStorage.Write ⟨pDemo, kCaseA⟩ fsEmpty vHello).2 vHello = (none, fs₂)
      ∧ readFile fs₂ (SuiteStorage.mk pDemo kCaseA).Path
        = readFile (SuiteStorage.Write ⟨pDemo, kCaseA⟩ fsEmpty vHello).2
            (SuiteStorage.mk pDemo kCaseA).Path :=
  claim_C6_amended_idempotent ⟨pDemo, kCaseA⟩ fsEmpty _ vHello (by decide) (by rfl)

/-- The exact body the spec's example demands after the header lines:
`"caseA"` entry holding `hello`/`world` across two lines, then the
`"caseB"` entry holding `x`, each value in a literal triple-quote block
opened by the delimiter plus a newline and closed right after the value's
last byte. -/
def demoBody : Str :=
  "\"caseA\" = ".data ++ tq ++ "\nhello\nworld".data ++ tq
    ++ "\n\"caseB\" = ".data ++ tq ++ "\nx".data ++ tq ++ ['\n']

/-- Claim C7: starting from an absent suite file (and likewise from an
existing empty one), writing `caseA` then `caseB` produces a file whose
body after the header lines is exactly the two serialized entries of the
spec's example. -/
theorem claim_C7_example :
    ((SuiteStorage.Write ⟨pDemo, kCaseA⟩ fsEmpty vHello).1 = none
      ∧ (SuiteStorage.Write ⟨pDemo, kCaseB⟩
          (SuiteStorage.Write ⟨pDemo, kCaseA⟩ fsEmpty vHello).2 vX).1 = none
      ∧ readFile (SuiteStorage.Write ⟨pDemo, kCaseB⟩
          (SuiteStorage.Write ⟨pDemo, kCaseA⟩ fsEmpty vHello).2 vX).2 pDemo
        = some (headerText ++ demoBody))
    ∧ ((SuiteStorage.Write ⟨pDemo, kCaseA⟩ fsEmptyFile vHello).1 = none
      ∧ (SuiteStorage.Write ⟨pDemo, kCaseB⟩
          (SuiteStorage.Write ⟨pDemo, kCaseA⟩ fsEmptyFile vHello).2 vX).1 = none
      ∧ readFile (SuiteStorage.Write ⟨pDemo, kCaseB⟩
          (SuiteStorage.Write ⟨pDemo, kCaseA⟩ fsEmptyFile vHello).2 vX).2 pDemo
        = some (headerText ++ demoBody)) := by
  refine ⟨⟨by decide, by decide, by decide⟩, ⟨by decide, by decide, by decide⟩⟩

/-- Claim C8: both write operations create the missing parent directories
of the target path (the whole ancestor chain) before writing, keep the
directories that already existed, and the write succeeds. -/
theorem claim_C8_mkdirs :
    (∀ (s : SingleStorage) (fs : Fs) (v : Str),
      (s.Write fs v).1 = none
      ∧ dirOf s.Path ∈ (s.Write fs v).2.dirs
      ∧ (∀ a ∈ ancestors (dirOf s.Path), a ∈ (s.Write fs v).2.dirs)
      ∧ ∀ x ∈ fs.dirs, x ∈ (s.Write fs v).2.dirs)
    ∧ (∀ (s : SuiteStorage) (fs : Fs) (v : Str) (fs' : Fs),
      s.Write fs v = (none, fs') →
      dirOf s.Path ∈ fs'.dirs
      ∧ (∀ a ∈ ancestors (dirOf s.Path), a ∈ fs'.dirs)
      ∧ ∀ x ∈ fs.dirs, x ∈ fs'.dirs) := by
  constructor
  · intro s fs v
    refine ⟨rfl, ?_, ?_, ?_⟩
    · exact mkdirAll_dirs_anc fs (dirOf s.Path) _ (mem_ancestors_self _)
    · intro a ha
      exact mkdirAll_dirs_anc fs (dirOf s.Path) a ha
    · intro x hx
      exact mkdirAll_dirs_super fs (dirOf s.Path) x hx
  · intro s fs v fs' h
    obtain ⟨base, _, rfl⟩ := suiteWrite_ok_decomp s fs v fs' h
    refine ⟨?_, ?_, ?_⟩
    · exact mkdirAll_dirs_anc fs (dirOf s.Path) _ (mem_ancestors_self _)
    · intro a ha
      exact mkdirAll_dirs_anc fs (dirOf s.Path) a ha
    · intro x hx
      exact mkdirAll_dirs_super fs (dirOf s.Path) x hx

theorem claim_C8_witness :
    dirOf pDemo ∈ (SuiteStorage.Write ⟨pDemo, kA⟩ fsEmpty vX).2.dirs :=
  (claim_C8_mkdirs.2 ⟨pDemo, kA⟩ fsEmpty vX _ (by decide)).1

end Goldga
